import Mathlib

/-!
Shallow embedding of the umem user-space allocator (src/umem.c) and proofs
about the claims of its design specification.

The allocator manages one region obtained from mmap.  A block is a header
(one size_t, 8 bytes) followed by its payload; a free block stores the
address of the next free block in the first 8 bytes of its payload.  The
allocator state observable by the placement algorithms is the free list:
the chain of free blocks hanging off the global head pointer.

Two levels of embedding are used, both translated from src/umem.c:

1. A registry-level embedding where the free list is the list of its
   blocks, each a pair of header address and recorded size.  This is the
   natural state type for the placement algorithms and for ufree under the
   standard representation invariant (the chain is finite, acyclic, and
   each block's two fields live at offsets 0 and 8 of its header).

2. A pointer-level embedding (Heap) that keeps the raw size and next
   fields as functions of the address and runs the source loops on fuel.
   It can express executions that leave the representation invariant:
   the self-linked free list that makes coalescing_memory loop forever,
   and scans that start from a stale next-fit cursor.

Machine arithmetic: size_t values are Nat reduced modulo 2^64 at every
operation that can wrap in C (w64, sub64 below).  Addresses are Nat; the
null pointer is 0.  Pointer arithmetic never wraps in the executions we
consider, so addresses use plain Nat addition.
-/

namespace UMem

/-- Wrap-around of a size_t expression (64-bit). -/
def w64 (n : Nat) : Nat := n % 2 ^ 64

/-- size_t subtraction x - y with wrap-around, for x < 2^64. -/
def sub64 (x y : Nat) : Nat := (x + 2 ^ 64 - y % 2 ^ 64) % 2 ^ 64

/-- Request alignment: first_fit uses (size + 7) and-not 7, best_fit and
next_fit use (size + sizeof(size_t) - 1) and-not (sizeof(size_t) - 1);
on the 64-bit target both round up to the next multiple of 8, with the
addition performed in size_t. -/
def align8 (n : Nat) : Nat := w64 (n + 7) / 8 * 8

/-- A block of the free registry: address of its header and the size
recorded in that header. -/
structure Block where
  addr : Nat
  size : Nat
deriving DecidableEq, Repr

/-- Result of one allocation call at the registry level: fail is the NULL
return; ok gives the returned payload pointer, the header value found at
pointer - 8 after the call, and the new free registry; untracked marks the
executions of first_fit_algorithm that store through
(void **)(prev_block + 1) - a byte-offset store that overwrites the
previous free block's header, which a registry-level state cannot
represent. -/
inductive AllocResult
  | fail
  | ok (ptr hdr : Nat) (registry : List Block)
  | untracked
deriving DecidableEq, Repr

/-- Payload pointer of an allocation result, if the call returned one. -/
def AllocResult.ptrOf : AllocResult → Option Nat
  | .ok p _ _ => some p
  | _ => none

/-- first_fit_algorithm (umem.c:206-269).  The scan starts at the head;
the first block whose size is at least the aligned request is taken.  If
the winner is the head block (prev_block == NULL): when
block_size > size + sizeof(size_t) a remainder header is written at
current + 8 + size, but the unconditional removal that follows sets
free_list to current's next pointer, so the whole block leaves the
registry and the remainder is never linked in; the header of the returned
block holds the aligned size after a split and is untouched otherwise.
If the winner is deeper in the list, the source stores the link through
(void **)(prev_block + 1) (umem.c:241,252), clobbering the previous
header byte-wise; and when the aligned request is 0 a split writes the
remainder header over the block's own next field before reading it.
Both kinds of run leave the registry abstraction and are untracked
here. -/
def first_fit_algorithm (l : List Block) (n : Nat) : AllocResult :=
  match l with
  | [] => .fail
  | b :: t =>
    if align8 n ≤ b.size then
      if w64 (align8 n + 8) < b.size then
        if align8 n = 0 then .untracked else .ok (b.addr + 8) (align8 n) t
      else .ok (b.addr + 8) b.size t
    else if t.any fun c => align8 n ≤ c.size then .untracked
    else .fail

/-- Scan loop of best_fit_algorithm (umem.c:290-307): walk the list
keeping the index and block of the best candidate so far and its
difference; a block replaces the candidate only when its difference is
strictly smaller. -/
def bestGo (a : Nat) : List Block → Nat → Nat → Option (Nat × Block) → Option (Nat × Block)
  | [], _, _, best => best
  | b :: t, i, smallest, best =>
    if a ≤ b.size ∧ b.size - a < smallest then
      bestGo a t (i + 1) (b.size - a) (some (i, b))
    else
      bestGo a t (i + 1) smallest best

/-- best_fit_algorithm (umem.c:272-343).  smallest_diff starts at
SIZE_MAX.  On success, if remaining = size - request exceeds
sizeof(size_t) + sizeof(void *) the block is split in place: the spot in
the list is redirected to the remainder block and the header is set to
the aligned request; otherwise the block is unlinked whole and its header
is left unchanged.  A split under aligned request 0 writes the remainder
header over the block's own next field before reading it and is
untracked here. -/
def best_fit_algorithm (l : List Block) (n : Nat) : AllocResult :=
  match bestGo (align8 n) l 0 (2 ^ 64 - 1) none with
  | none => .fail
  | some (i, b) =>
    if 8 + 8 < b.size - align8 n then
      if align8 n = 0 then .untracked
      else
        .ok (b.addr + 8) (align8 n)
          (l.set i ⟨b.addr + 8 + align8 n, b.size - align8 n - 8⟩)
    else
      .ok (b.addr + 8) b.size (l.eraseIdx i)

/-- Scan loop of worst_fit_algorithm (umem.c:353-369): largest_diff
starts at 0 and a block is recorded only when its difference is strictly
larger, so a block whose size equals the (unaligned) request is never
selected. -/
def worstGo (n : Nat) : List Block → Nat → Nat → Option (Nat × Block) → Option (Nat × Block)
  | [], _, _, best => best
  | b :: t, i, largest, best =>
    if n ≤ b.size ∧ largest < b.size - n then
      worstGo n t (i + 1) (b.size - n) (some (i, b))
    else
      worstGo n t (i + 1) largest best

/-- worst_fit_algorithm (umem.c:345-395).  The request is not aligned.
remaining_size = size - request - sizeof(size_t) is computed in size_t
before any check, so it wraps when size - request < 8; the block is split
whenever remaining_size > sizeof(size_t).  The header of the selected
block is set to the raw request in both branches (umem.c:388).  A split
under a raw request below 8 writes the remainder header over bytes of
the block's own next field before reading it and is untracked here. -/
def worst_fit_algorithm (l : List Block) (n : Nat) : AllocResult :=
  match worstGo n l 0 0 none with
  | none => .fail
  | some (i, b) =>
    if 8 < sub64 (sub64 b.size n) 8 then
      if n < 8 then .untracked
      else .ok (b.addr + 8) n (l.set i ⟨b.addr + 8 + n, sub64 (sub64 b.size n) 8⟩)
    else
      .ok (b.addr + 8) n (l.eraseIdx i)

/-- Result of a next-fit allocation at the registry level.  crash marks
the NULL dereference the source performs when the scan starts at the null
head of an empty registry; untracked marks scans that start at an
in-bounds cursor that is not a registry block (the source then reads raw
memory, which the registry-level state cannot represent). -/
inductive NextResult
  | fail (cursor : Nat) (registry : List Block)
  | ok (ptr hdr : Nat) (registry : List Block) (cursor : Nat)
  | crash
  | untracked
deriving DecidableEq, Repr

/-- Payload pointer of a next-fit result, if the call returned one. -/
def NextResult.ptrOf : NextResult → Option Nat
  | .ok p _ _ _ => some p
  | _ => none

/-- Scan of next_fit_algorithm over the circular order of the registry
starting at the cursor: the first block with size at least the aligned
request wins. -/
def nfScan (a : Nat) : List Block → Option Block
  | [] => none
  | b :: t => if a ≤ b.size then some b else nfScan a t

/-- next_fit_algorithm (umem.c:402-434) at the registry level.  The
cursor (static last_allocated) is reset to the head only when it is null
or outside [base, base + rsize); the do-while then walks the circular
chain from the cursor until it returns to its start.  On a hit with
remaining = size - request - 8 (size_t, may wrap) above 2*sizeof(size_t)
the block is split: a remainder header is written after the allocated
prefix, the original block stays in the registry with its header shrunk
to the request, the cursor moves to the remainder, and the pointer
returned is the remainder's payload (umem.c:422,426).  Otherwise nothing
is unlinked and the block's own payload is returned with its header
unchanged.  (After an underflowing split the remainder header that the
source writes at addr + request + 8 can overwrite a neighbouring header;
the registry returned here tracks only the in-list updates.  A split
under aligned request 0 overwrites the block's own next field before
reading it and is untracked here.) -/
def next_fit_algorithm (l : List Block) (cursor base rsize n : Nat) : NextResult :=
  match
    if cursor = 0 ∨ cursor < base ∨ base + rsize ≤ cursor then some 0
    else l.findIdx? fun b => b.addr = cursor with
  | none => .untracked
  | some i =>
    match l.rotate i with
    | [] => .crash
    | s :: t =>
      match nfScan (align8 n) (s :: t) with
      | none => .fail s.addr l
      | some b =>
        if 8 * 2 < sub64 (sub64 b.size (align8 n)) 8 then
          if align8 n = 0 then .untracked
          else
            .ok (b.addr + align8 n + 8 + 8) (sub64 (sub64 b.size (align8 n)) 8)
              (l.map fun c => if c.addr = b.addr then ⟨c.addr, align8 n⟩ else c)
              (b.addr + align8 n + 8)
        else .ok (b.addr + 8) b.size l b.addr

/-- Insertion scan of ufree (umem.c:92-107): walk the address-ordered
free list while the current block's address is below the freed header,
then link the freed block in at that spot. -/
def insertSorted (f : Block) : List Block → List Block
  | [] => [f]
  | b :: t => if b.addr < f.addr then b :: insertSorted f t else f :: b :: t

/-- Loop of coalescing_memory (umem.c:121-143) at the registry level,
with the current block held apart from the blocks after it: merge the
current block with its successor whenever current + size + 8 equals the
successor's address (the merged size accumulates in size_t), staying on
the merged block; otherwise emit the current block and advance. -/
def coalLoop (a : Block) : List Block → List Block
  | [] => [a]
  | b :: t =>
    if a.addr + a.size + 8 = b.addr then
      coalLoop ⟨a.addr, w64 (a.size + b.size + 8)⟩ t
    else
      a :: coalLoop b t

/-- coalescing_memory (umem.c:116-144) at the registry level: run the
merge loop from the head of the free list. -/
def coalescing : List Block → List Block
  | [] => []
  | a :: t => coalLoop a t

/-- ufree (umem.c:80-113) on a non-null pointer at the registry level:
the freed block (header address ptr - 8, size read from that header) is
linked into the free list in address order and coalescing_memory runs. -/
def ufree (f : Block) (l : List Block) : List Block :=
  coalescing (insertSorted f l)

/-- The partition property of the specification, over the physical blocks
of the region in address order: each block's header address plus 8 plus
its recorded size is the next header (the region end for the last). -/
def tilesRegion : Nat → Nat → List Block → Bool
  | lo, hi, [] => lo = hi
  | lo, hi, b :: t => decide (b.addr = lo) && tilesRegion (b.addr + 8 + b.size) hi t

/-- Pointer-level allocator state: the size_t stored at each header
address, the next pointer stored at each header address + 8, and the
global free_list head.  The null pointer is 0. -/
structure Heap where
  sizeAt : Nat → Nat
  nextAt : Nat → Nat
  freeList : Nat

/-- Pointwise store into one of the heap's fields. -/
def upd (f : Nat → Nat) (a v : Nat) : Nat → Nat :=
  fun x => if x = a then v else f x

/-- The loop of coalescing_memory (umem.c:121-143) on fuel: while the
current block and its next pointer are non-null, merge when
current + size + 8 equals the next pointer (staying on the merged
block), else advance to the next block.  none means the fuel ran out:
the loop has not terminated within that many iterations. -/
def coalescing_memory (h : Heap) (cur : Nat) : Nat → Option Heap
  | 0 => none
  | fuel + 1 =>
    if cur = 0 then some h
    else if h.nextAt cur = 0 then some h
    else
      let nxt := h.nextAt cur
      if cur + h.sizeAt cur + 8 = nxt then
        coalescing_memory
          ⟨upd h.sizeAt cur (w64 (h.sizeAt cur + h.sizeAt nxt + 8)),
           upd h.nextAt cur (h.nextAt nxt), h.freeList⟩ cur fuel
      else coalescing_memory h nxt fuel

/-- Insertion scan of ufree (umem.c:95-98) on fuel: returns the final
prev_block and current_block pair. -/
def insertScan (h : Heap) (blk : Nat) (prev cur : Nat) : Nat → Option (Nat × Nat)
  | 0 => none
  | fuel + 1 =>
    if cur ≠ 0 ∧ cur < blk then insertScan h blk cur (h.nextAt cur) fuel
    else some (prev, cur)

/-- Linking stores of ufree (umem.c:101-107): the predecessor's next
field (or the free-list head when there is no predecessor) is pointed at
the freed block, whose next field is pointed at the former successor. -/
def linkIn (h : Heap) (blk prev cur : Nat) : Heap :=
  if prev ≠ 0 then ⟨h.sizeAt, upd (upd h.nextAt prev blk) blk cur, h.freeList⟩
  else ⟨h.sizeAt, upd h.nextAt blk cur, blk⟩

/-- ufree (umem.c:80-113) at the pointer level.  A null pointer reports
an error (-1) and changes nothing.  Otherwise the block header is
recovered at ptr - 8, linked into the free list after the insertion
scan, and coalescing_memory runs from the head; the call returns 0.
none means a loop did not finish within the fuel. -/
def ufreeP (h : Heap) (ptr : Nat) (fuel : Nat) : Option (Int × Heap) :=
  if ptr = 0 then some (-1, h)
  else
    match insertScan h (ptr - 8) 0 h.freeList fuel with
    | none => none
    | some (prev, cur) =>
      match coalescing_memory (linkIn h (ptr - 8) prev cur)
          (linkIn h (ptr - 8) prev cur).freeList fuel with
      | none => none
      | some h3 => some (0, h3)

/-- Result of next_fit_algorithm at the pointer level: the returned
pointer (none for a NULL return), the heap and the cursor after the
call; crash marks the dereference of the null pointer. -/
inductive NFRes
  | ok (res : Option Nat) (h : Heap) (cursor : Nat)
  | crash
  | fuelout

/-- Returned pointer of a pointer-level next-fit run, when it ran to
completion. -/
def NFRes.ptrOf : NFRes → Option (Option Nat)
  | .ok r _ _ => some r
  | _ => none

/-- The do-while of next_fit_algorithm (umem.c:412-431) on fuel.  The
body dereferences last_allocated, so a null current crashes.  On a hit,
remaining = size - request - 8 in size_t; above 2*sizeof(size_t) the
block is split (remainder header and next written at cur + request + 8,
header of cur shrunk to the request, cursor moved to the remainder) and
the remainder's payload is returned; otherwise the heap is untouched and
cur's payload is returned.  On a miss the scan advances, wrapping to the
free-list head, and stops with a NULL return when it is back at start. -/
def nfLoop (h : Heap) (a start : Nat) (cur : Nat) : Nat → NFRes
  | 0 => .fuelout
  | fuel + 1 =>
    if cur = 0 then .crash
    else
      let cs := h.sizeAt cur
      if a ≤ cs then
        let rem := sub64 (sub64 cs a) 8
        if 8 * 2 < rem then
          let nb := cur + a + 8
          .ok (some (nb + 8))
            ⟨upd (upd h.sizeAt nb rem) cur a,
             upd h.nextAt nb (h.nextAt cur), h.freeList⟩ nb
        else .ok (some (cur + 8)) h cur
      else
        let stepped := h.nextAt cur
        let stepped' := if stepped = 0 then h.freeList else stepped
        if stepped' = start then .ok none h stepped'
        else nfLoop h a start stepped' fuel

/-- next_fit_algorithm (umem.c:402-434) at the pointer level: the cursor
is replaced by the free-list head when it is null or outside
[base, base + rsize), and the circular scan starts there. -/
def next_fitP (h : Heap) (base rsize cursor n fuel : Nat) : NFRes :=
  let a := align8 n
  let start :=
    if cursor = 0 ∨ cursor < base ∨ base + rsize ≤ cursor then h.freeList
    else cursor
  nfLoop h a start start fuel

/-- The free-list chain of a heap read off the next pointers, on fuel. -/
def chainList (h : Heap) : Nat → Nat → List Nat
  | _, 0 => []
  | p, fuel + 1 => if p = 0 then [] else p :: chainList h (h.nextAt p) fuel

/-- A release call that never completes: for every amount of fuel the
loops of ufree have not returned. -/
def ufreeHangs (h : Heap) (ptr : Nat) : Prop :=
  ∀ fuel, ufreeP h ptr fuel = none

/-- Heap of a freshly initialised 4096-byte region at base 4096 under
next fit: one free block of size 4088 at the base, null cursor. -/
def H0 : Heap :=
  ⟨upd (fun _ => 0) 4096 4088, fun _ => 0, 4096⟩

/-- Heap with free chain 4096 (size 8) -> 4512 (size 1000) inside the
region [4096, 8192), and a stale block header at 4800 (size 600, next
null) that is not on the chain - the shape left behind when a block
around 4800 was allocated or coalesced away while the next-fit cursor
still pointed at it. -/
def Hstale : Heap :=
  ⟨upd (upd (upd (fun _ => 0) 4096 8) 4512 1000) 4800 600,
   upd (fun _ => 0) 4096 4512, 4096⟩

/-- Heap whose free list is empty (all blocks allocated). -/
def Hempty : Heap := ⟨fun _ => 0, fun _ => 0, 0⟩

/-- Heap Hempty after releasing the pointer 4104: the single block at
4096 is the whole free list. -/
def HemptyFreed : Heap := ⟨fun _ => 0, upd (fun _ => 0) 4096 0, 4096⟩

/-- C1: the claim says the blocks always exactly tile the region at
every quiescent point.  Trace from a fresh 4096-byte region at base 4096
under worst fit: umalloc(3000) splits off the free block (7104, 1080);
umalloc(1024) splits it into the allocated block at 7104 and the free
block (8136, 48); ufree of the first pointer restores (4096, 3000); at
this quiescent point the three blocks tile the region exactly.  Then
umalloc(2993) selects (4096, 3000) (difference 7 > 0) and the size_t
remainder 3000 - 2993 - 8 wraps to 2^64 - 1: the splitter installs a
free block of that size at 7097, and the blocks no longer tile the
region - the new free block overruns the region end by far. -/
theorem claim1_partition_broken_by_worst_fit :
    worst_fit_algorithm [⟨4096, 4088⟩] 3000 = .ok 4104 3000 [⟨7104, 1080⟩] ∧
    worst_fit_algorithm [⟨7104, 1080⟩] 1024 = .ok 7112 1024 [⟨8136, 48⟩] ∧
    ufree ⟨4096, 3000⟩ [⟨8136, 48⟩] = [⟨4096, 3000⟩, ⟨8136, 48⟩] ∧
    worst_fit_algorithm [⟨4096, 3000⟩, ⟨8136, 48⟩] 2993 =
      .ok 4104 2993 [⟨7097, 2 ^ 64 - 1⟩, ⟨8136, 48⟩] ∧
    tilesRegion 4096 8192 [⟨4096, 3000⟩, ⟨7104, 1024⟩, ⟨8136, 48⟩] = true ∧
    tilesRegion 4096 8192 [⟨4096, 2993⟩, ⟨7097, 2 ^ 64 - 1⟩, ⟨8136, 48⟩] = false :=
  ⟨by decide, by decide, by decide, by decide, by decide, by decide⟩

/-- C2: the claim says allocation fails exactly when no free block of
sufficient size exists.  With the single free block of size 4088 and a
request of exactly 4088, worst-fit returns NULL (its strict
improvement test, seeded with largest_diff = 0, never selects a block
whose difference is 0) although a sufficient block exists - best-fit on
the same state serves the request. -/
theorem claim2_worst_fit_fails_despite_fit :
    worst_fit_algorithm [⟨4096, 4088⟩] 4088 = .fail ∧
    4088 ≤ (Block.mk 4096 4088).size ∧
    best_fit_algorithm [⟨4096, 4088⟩] 4088 = .ok 4104 4088 [] :=
  ⟨by decide, by decide, by decide⟩

/-- C3: the claim says a split links the residual free block into the
registry in place of the original block.  First-fit umalloc(100) on the
fresh region splits (4088 > 104 + 8), writes a remainder header of size
3976 at 4208, but then unconditionally unlinks the whole block: the
registry comes back empty and the residual block the claim expects,
(4208, 3976), is in no registry. -/
theorem claim3_first_fit_loses_remainder :
    first_fit_algorithm [⟨4096, 4088⟩] 100 = .ok 4104 104 [] ∧
    Block.mk 4208 3976 ∉ ([] : List Block) :=
  ⟨by decide, by decide⟩

/-- C4 counterexample: the claim quantifies over every registry state and
every request n, with failure exactly when no block has size at least n.
With a free block of size 100 and n = 99, best-fit compares against the
aligned request 104 and fails although the block's size 100 is at least
99. -/
theorem claim4_counterexample :
    best_fit_algorithm [⟨4096, 100⟩] 99 = .fail ∧
    99 ≤ (Block.mk 4096 100).size ∧ align8 99 = 104 :=
  ⟨by decide, by decide, by decide⟩

/-- C6 counterexample: the claim says the header of the returned block
holds exactly the aligned requested size.  From the fresh region,
best-fit umalloc(3976) splits off a free block of size 104 at 8080;
best-fit umalloc(96) then takes that block whole (remainder 8 is below
the split threshold) and leaves its header at 104, not at the aligned
request 96. -/
theorem claim6_counterexample :
    best_fit_algorithm [⟨4096, 4088⟩] 3976 = .ok 4104 3976 [⟨8080, 104⟩] ∧
    best_fit_algorithm [⟨8080, 104⟩] 96 = .ok 8088 104 [] ∧
    align8 96 = 96 ∧ (104 : Nat) ≠ 96 :=
  ⟨by decide, by decide, by decide, by decide⟩

/-- C8 counterexample: the claim includes every strategy.  Under
worst-fit, umalloc(4075) on the fresh region succeeds taking the whole
block (remainder 5 is below the threshold) and rewrites its header to
4075; after ufree puts the block (now of recorded size 4075) back,
umalloc(4075) fails - the difference is 0 and worst-fit never selects a
zero-difference block - so no address at all is returned, let alone an
overlapping one. -/
theorem claim8_counterexample :
    worst_fit_algorithm [⟨4096, 4088⟩] 4075 = .ok 4104 4075 [] ∧
    ufree ⟨4096, 4075⟩ [] = [⟨4096, 4075⟩] ∧
    worst_fit_algorithm [⟨4096, 4075⟩] 4075 = .fail :=
  ⟨by decide, by decide, by decide⟩

/-- C7 counterexample: the claim says that whenever the cursor does not
refer to a block currently in the Free Registry it is reset to the
registry head.  In heap Hstale the registry chain is 4096 -> 4512, the
cursor 4800 is inside the region bounds but on no chain block, and the
scan is not reset: it starts at 4800, reads the stale header there and
returns 5016, while a scan from the registry head returns 4728. -/
theorem claim7_counterexample :
    chainList Hstale Hstale.freeList 10 = [4096, 4512] ∧
    (4800 : Nat) ∉ [4096, 4512] ∧ 4096 ≤ 4800 ∧ 4800 < 4096 + 4096 ∧
    (next_fitP Hstale 4096 4096 4800 200 10).ptrOf = some (some 5016) ∧
    (next_fitP Hstale 4096 4096 0 200 10).ptrOf = some (some 4728) ∧
    some (some 5016) ≠ some (some (4728 : Nat)) :=
  ⟨by decide, by decide, by decide, by decide, by decide, by decide, by decide⟩

/-- Helper for C9: coalescing_memory never terminates on the self-linked
free list that ufree builds when the released block is still the
registry head: the single block at 4096 is not adjacent to itself, so
the loop advances to the next block - 4096 again - forever. -/
theorem coalescing_memory_selfloop_none :
    ∀ fuel, coalescing_memory ⟨H0.sizeAt, upd H0.nextAt 4096 4096, 4096⟩ 4096 fuel = none := by
  intro fuel
  induction fuel with
  | zero => rfl
  | succ f ih =>
    rw [coalescing_memory]
    simp only [upd, H0, w64]
    norm_num
    exact ih

/-- Helper for C9: the reduction of one ufree step on the self-inserting
state, exposing the coalescing loop. -/
theorem ufreeP_H0_step (f : Nat) :
    ufreeP H0 4104 (f + 1) =
      match coalescing_memory ⟨H0.sizeAt, upd H0.nextAt 4096 4096, 4096⟩ 4096 (f + 1) with
      | none => none
      | some h3 => some ((0 : Int), h3) := by
  rfl

/-- C9: the claim says every operation always returns.  In the reachable
state H0 right after initialising a 4096-byte region under next fit,
umalloc(4064) hits the below-threshold branch of next_fit_algorithm: it
returns the payload 4104 but leaves the block in the registry (the heap
is unchanged and the chain still holds 4096).  The immediately following
ufree(4104) then links the block onto itself (block_to_free equals the
registry head, so free_list and the block's next field both become
4096), and coalescing_memory never returns for any amount of fuel. -/
theorem claim9_release_never_returns :
    next_fitP H0 4096 4096 0 4064 10 = .ok (some 4104) H0 4096 ∧
    chainList H0 H0.freeList 10 = [4096] ∧
    ufreeHangs H0 4104 := by
  refine ⟨rfl, by decide, ?_⟩
  intro fuel
  cases fuel with
  | zero => rfl
  | succ f =>
    rw [ufreeP_H0_step, coalescing_memory_selfloop_none]

/-- C10: release fails exactly on the null pointer and is then a no-op.
Whenever a pointer-level ufree call runs to completion, its return code
is the error -1 exactly when the argument was null, and in the null case
the heap (region contents, free-list head) is unchanged. -/
theorem claim10_release_error_iff_null
    (h : Heap) (p fuel : Nat) (r : Int) (h' : Heap)
    (hrun : ufreeP h p fuel = some (r, h')) :
    (r ≠ 0 ↔ p = 0) ∧ (p = 0 → r = -1 ∧ h' = h) := by
  by_cases hp : p = 0
  · subst hp
    rw [ufreeP, if_pos rfl] at hrun
    have h1 := Option.some.inj hrun
    have hr : r = -1 := (congrArg Prod.fst h1).symm
    have hh : h' = h := (congrArg Prod.snd h1).symm
    subst hr hh
    exact ⟨by decide, fun _ => ⟨rfl, rfl⟩⟩
  · rw [ufreeP, if_neg hp] at hrun
    have hr : r = 0 := by
      rcases hins : insertScan h (p - 8) 0 h.freeList fuel with _ | ⟨prev, cur⟩
      · rw [hins] at hrun
        exact absurd hrun (by simp)
      · rw [hins] at hrun
        dsimp only at hrun
        rcases hco : coalescing_memory (linkIn h (p - 8) prev cur)
            (linkIn h (p - 8) prev cur).freeList fuel with _ | h3
        · rw [hco] at hrun
          exact absurd hrun (by simp)
        · rw [hco] at hrun
          exact (congrArg Prod.fst (Option.some.inj hrun)).symm
    subst hr
    exact ⟨by simp [hp], fun hc => absurd hc hp⟩

/-- C10 witness: releasing the non-null pointer 4104 into the empty free
list of Hempty completes with return code 0 and heap HemptyFreed. -/
theorem claim10_witness :
    ((0 : Int) ≠ 0 ↔ (4104 : Nat) = 0) ∧
    ((4104 : Nat) = 0 → (0 : Int) = -1 ∧ HemptyFreed = Hempty) :=
  claim10_release_error_iff_null Hempty 4104 3 0 HemptyFreed rfl

/-- Members of an insertion are the inserted block or old members. -/
theorem mem_insertSorted {f x : Block} :
    ∀ {l : List Block}, x ∈ insertSorted f l → x = f ∨ x ∈ l := by
  intro l
  induction l with
  | nil => intro hx; simp [insertSorted] at hx; exact Or.inl hx
  | cons b t ih =>
    intro hx
    rw [insertSorted] at hx
    by_cases hb : b.addr < f.addr
    · rw [if_pos hb] at hx
      rcases List.mem_cons.mp hx with h | h
      · exact Or.inr (h ▸ List.mem_cons_self b t)
      · rcases ih h with h' | h'
        · exact Or.inl h'
        · exact Or.inr (List.mem_cons_of_mem b h')
    · rw [if_neg hb] at hx
      rcases List.mem_cons.mp hx with h | h
      · exact Or.inl h
      · exact Or.inr h

/-- The ufree insertion keeps the registry gap-ordered when the freed
block is disjoint from every registry block. -/
theorem insertSorted_pairwise (f : Block) :
    ∀ l : List Block,
      l.Pairwise (fun a b => a.addr + 8 + a.size ≤ b.addr) →
      (∀ b ∈ l, b.addr + 8 + b.size ≤ f.addr ∨ f.addr + 8 + f.size ≤ b.addr) →
      (insertSorted f l).Pairwise (fun a b => a.addr + 8 + a.size ≤ b.addr) := by
  intro l
  induction l with
  | nil => intro _ _; simp [insertSorted]
  | cons b t ih =>
    intro hp hd
    rw [List.pairwise_cons] at hp
    rw [insertSorted]
    by_cases hb : b.addr < f.addr
    · rw [if_pos hb]
      rw [List.pairwise_cons]
      constructor
      · intro x hx
        rcases mem_insertSorted hx with h | h
        · subst h
          rcases hd b (List.mem_cons_self b t) with h' | h'
          · exact h'
          · omega
        · exact hp.1 x h
      · exact ih hp.2 fun c hc => hd c (List.mem_cons_of_mem b hc)
    · rw [if_neg hb]
      rw [List.pairwise_cons]
      constructor
      · intro x hx
        rcases List.mem_cons.mp hx with h | h
        · rw [h]
          rcases hd b (List.mem_cons_self b t) with h' | h'
          · omega
          · exact h'
        · rcases hd x (List.mem_cons_of_mem b h) with h' | h'
          · have := hp.1 x h
            omega
          · exact h'
      · exact List.pairwise_cons.mpr hp

/-- The coalescing loop turns a gap-ordered, size-bounded tail into a
strictly gap-ordered list headed at the current block's address, all
bounds preserved. -/
theorem coalLoop_spec :
    ∀ (t : List Block) (a : Block),
      (∀ b ∈ t, a.addr + 8 + a.size ≤ b.addr) →
      t.Pairwise (fun x y => x.addr + 8 + x.size ≤ y.addr) →
      a.addr + 8 + a.size < 2 ^ 64 →
      (∀ b ∈ t, b.addr + 8 + b.size < 2 ^ 64) →
      (coalLoop a t).Pairwise (fun x y => x.addr + 8 + x.size < y.addr) ∧
      (∃ s rest, coalLoop a t = ⟨a.addr, s⟩ :: rest) := by
  intro t
  induction t with
  | nil =>
    intro a _ _ _ _
    refine ⟨?_, ⟨a.size, [], rfl⟩⟩
    rw [coalLoop]
    simp
  | cons b t ih =>
    intro a hgap hp hab hbb
    rw [List.pairwise_cons] at hp
    rw [coalLoop]
    by_cases hadj : a.addr + a.size + 8 = b.addr
    · rw [if_pos hadj]
      have hbmem := hbb b (List.mem_cons_self b t)
      have hsum : a.size + b.size + 8 < 2 ^ 64 := by omega
      have hw : w64 (a.size + b.size + 8) = a.size + b.size + 8 :=
        Nat.mod_eq_of_lt hsum
      have hnew : ∀ c ∈ t, a.addr + 8 + w64 (a.size + b.size + 8) ≤ c.addr := by
        intro c hc
        have := hp.1 c hc
        rw [hw]
        omega
      have hnb : (⟨a.addr, w64 (a.size + b.size + 8)⟩ : Block).addr + 8 +
          (⟨a.addr, w64 (a.size + b.size + 8)⟩ : Block).size < 2 ^ 64 := by
        show a.addr + 8 + w64 (a.size + b.size + 8) < 2 ^ 64
        rw [hw]
        omega
      have := ih ⟨a.addr, w64 (a.size + b.size + 8)⟩ hnew hp.2 hnb
        (fun c hc => hbb c (List.mem_cons_of_mem b hc))
      exact ⟨this.1, this.2⟩
    · rw [if_neg hadj]
      have hb := hgap b (List.mem_cons_self b t)
      have := ih b hp.1 hp.2 (hbb b (List.mem_cons_self b t))
        (fun c hc => hbb c (List.mem_cons_of_mem b hc))
      obtain ⟨hpw, s, rest, hsh⟩ := this
      refine ⟨List.pairwise_cons.mpr ⟨?_, hpw⟩, ⟨a.size, coalLoop b t, rfl⟩⟩
      intro x hx
      rw [hsh] at hx hpw
      rcases List.mem_cons.mp hx with h | h
      · rw [h]
        show a.addr + 8 + a.size < b.addr
        omega
      · have hstep : b.addr + 8 + s < x.addr := (List.pairwise_cons.mp hpw).1 x h
        omega

/-- A strictly gap-ordered list has no pair of blocks, in either order,
whose first block ends exactly where the second begins. -/
theorem pairwise_no_adjacent :
    ∀ l : List Block,
      l.Pairwise (fun x y => x.addr + 8 + x.size < y.addr) →
      ∀ a ∈ l, ∀ b ∈ l, a.addr + 8 + a.size ≠ b.addr := by
  intro l
  induction l with
  | nil => intro _ a ha; exact absurd ha (List.not_mem_nil a)
  | cons c t ih =>
    intro hp a ha b hb
    rw [List.pairwise_cons] at hp
    rcases List.mem_cons.mp ha with h1 | h1 <;> rcases List.mem_cons.mp hb with h2 | h2
    · subst h1; subst h2; omega
    · subst h1
      have := hp.1 b h2
      omega
    · subst h2
      have := hp.1 a h1
      omega
    · exact ih hp.2 a h1 b h2

/-- C5: immediately after any completed release, no two blocks of the
Free Registry are physically adjacent.  The pre-state registry is
address-ordered with pairwise disjoint extents below 2^64, and the
released block is disjoint from every registry block; ufree inserts it
in address order and coalescing merges every adjacency, so in the
resulting registry no block's header address plus 8 plus its size equals
the address of any registry block. -/
theorem claim5_no_adjacent_after_release
    (l : List Block) (f : Block)
    (hsort : l.Pairwise (fun a b => a.addr + 8 + a.size ≤ b.addr))
    (hbound : ∀ b ∈ f :: l, b.addr + 8 + b.size < 2 ^ 64)
    (hdisj : ∀ b ∈ l, b.addr + 8 + b.size ≤ f.addr ∨ f.addr + 8 + f.size ≤ b.addr) :
    ∀ a ∈ ufree f l, ∀ b ∈ ufree f l, a.addr + 8 + a.size ≠ b.addr := by
  have h1 := insertSorted_pairwise f l hsort hdisj
  have hb : ∀ b ∈ insertSorted f l, b.addr + 8 + b.size < 2 ^ 64 := by
    intro b hbm
    rcases mem_insertSorted hbm with h | h
    · exact h ▸ hbound f (List.mem_cons_self f l)
    · exact hbound b (List.mem_cons_of_mem f h)
  rw [ufree]
  rcases hins : insertSorted f l with _ | ⟨a, t⟩
  · intro x hx
    rw [coalescing] at hx
    exact absurd hx (List.not_mem_nil x)
  · rw [hins] at h1 hb
    rw [List.pairwise_cons] at h1
    rw [coalescing]
    exact pairwise_no_adjacent _
      (coalLoop_spec t a h1.1 h1.2 (hb a (List.mem_cons_self a t))
        (fun c hc => hb c (List.mem_cons_of_mem a hc))).1

/-- C5 witness: releasing the block (4200, 88) between the registry
blocks (4096, 96) and (4296, 96), which it exactly abuts on both sides,
coalesces everything into the single block (4096, 296), which is not
adjacent to itself. -/
theorem claim5_witness :
    ([⟨4096, 96⟩, ⟨4296, 96⟩] : List Block).Pairwise
      (fun a b => a.addr + 8 + a.size ≤ b.addr) ∧
    ufree ⟨4200, 88⟩ [⟨4096, 96⟩, ⟨4296, 96⟩] = [⟨4096, 296⟩] ∧
    4096 + 8 + 296 ≠ 4096 :=
  ⟨by decide, by decide,
    claim5_no_adjacent_after_release [⟨4096, 96⟩, ⟨4296, 96⟩] ⟨4200, 88⟩
      (by decide) (by decide) (by decide) ⟨4096, 296⟩ (by decide) ⟨4096, 296⟩ (by decide)⟩

/-- Characterisation of the best-fit scan loop.  Walking a list whose
addresses strictly increase, with every size below SIZE_MAX, starting
from a running difference s and candidate best that satisfy the loop
invariant (an empty candidate comes with s = SIZE_MAX; a present
candidate fits, realises s exactly, and lies before every remaining
block): the scan returns none only from an empty candidate with no
fitting block remaining, and any returned block fits, either strictly
improved on s inside the list or is the untouched candidate, minimises
the difference over the list, and precedes every tying block. -/
theorem bestGo_spec (a : Nat) :
    ∀ (l : List Block) (i s : Nat) (best : Option (Nat × Block)),
      l.Pairwise (fun x y => x.addr < y.addr) →
      (∀ c ∈ l, c.size < 2 ^ 64 - 1) →
      (best = none → s = 2 ^ 64 - 1) →
      (∀ j b, best = some (j, b) →
        a ≤ b.size ∧ s = b.size - a ∧ ∀ c ∈ l, b.addr < c.addr) →
      (bestGo a l i s best = none → best = none ∧ ∀ c ∈ l, ¬ a ≤ c.size) ∧
      (∀ j b, bestGo a l i s best = some (j, b) →
        a ≤ b.size ∧
        ((b ∈ l ∧ b.size - a < s) ∨ best = some (j, b)) ∧
        (∀ c ∈ l, a ≤ c.size → b.size - a ≤ c.size - a) ∧
        (∀ c ∈ l, a ≤ c.size → c.size - a = b.size - a → b.addr ≤ c.addr)) := by
  intro l
  induction l with
  | nil =>
    intro i s best _ _ hinv0 hinv1
    constructor
    · intro hres
      rw [bestGo] at hres
      exact ⟨hres, by simp⟩
    · intro j b hres
      rw [bestGo] at hres
      refine ⟨(hinv1 j b hres).1, Or.inr hres, by simp, by simp⟩
  | cons h t ih =>
    intro i s best hsort hbnd hinv0 hinv1
    rw [List.pairwise_cons] at hsort
    rw [bestGo]
    by_cases hc : a ≤ h.size ∧ h.size - a < s
    · rw [if_pos hc]
      have hinv1' : ∀ j b, some (i, h) = some (j, b) →
          a ≤ b.size ∧ h.size - a = b.size - a ∧ ∀ c ∈ t, b.addr < c.addr := by
        intro j b hjb
        have hbh : b = h := by
          have := Option.some.inj hjb
          exact (congrArg Prod.snd this).symm
        subst hbh
        exact ⟨hc.1, rfl, hsort.1⟩
      have IH := ih (i + 1) (h.size - a) (some (i, h)) hsort.2
        (fun c hcm => hbnd c (List.mem_cons_of_mem h hcm))
        (by intro hx; exact absurd hx (by simp)) hinv1'
      constructor
      · intro hres
        exact absurd (IH.1 hres).1 (by simp)
      · intro j b hres
        obtain ⟨hfit, hmem, hmin, htie⟩ := IH.2 j b hres
        refine ⟨hfit, ?_, ?_, ?_⟩
        · rcases hmem with ⟨hbt, hlt⟩ | heqb
          · exact Or.inl ⟨List.mem_cons_of_mem h hbt, lt_trans hlt hc.2⟩
          · have hbh : b = h := by
              have := Option.some.inj heqb.symm
              exact (congrArg Prod.snd this)
            subst hbh
            exact Or.inl ⟨List.mem_cons_self b t, hc.2⟩
        · intro c hcm hca
          rcases List.mem_cons.mp hcm with hch | hct
          · rw [hch]
            rcases hmem with ⟨_, hlt⟩ | heqb
            · omega
            · have hbh : b = h := (congrArg Prod.snd (Option.some.inj heqb.symm))
              rw [hbh]
          · exact hmin c hct hca
        · intro c hcm hca hde
          rcases List.mem_cons.mp hcm with hch | hct
          · rcases hmem with ⟨_, hlt⟩ | heqb
            · rw [hch] at hde
              omega
            · have hbh : b = h := (congrArg Prod.snd (Option.some.inj heqb.symm))
              rw [hbh, hch]
          · exact htie c hct hca hde
    · rw [if_neg hc]
      have hinv1' : ∀ j b, best = some (j, b) →
          a ≤ b.size ∧ s = b.size - a ∧ ∀ c ∈ t, b.addr < c.addr := by
        intro j b hjb
        obtain ⟨h1, h2, h3⟩ := hinv1 j b hjb
        exact ⟨h1, h2, fun c hcm => h3 c (List.mem_cons_of_mem h hcm)⟩
      have IH := ih (i + 1) s best hsort.2
        (fun c hcm => hbnd c (List.mem_cons_of_mem h hcm)) hinv0 hinv1'
      constructor
      · intro hres
        obtain ⟨hbn, hnone⟩ := IH.1 hres
        refine ⟨hbn, ?_⟩
        intro c hcm
        rcases List.mem_cons.mp hcm with hch | hct
        · rw [hch]
          intro hfit
          have hs := hinv0 hbn
          have hhb := hbnd h (List.mem_cons_self h t)
          rw [hs] at hc
          omega
        · exact hnone c hct
      · intro j b hres
        obtain ⟨hfit, hmem, hmin, htie⟩ := IH.2 j b hres
        refine ⟨hfit, ?_, ?_, ?_⟩
        · rcases hmem with ⟨hbt, hlt⟩ | heqb
          · exact Or.inl ⟨List.mem_cons_of_mem h hbt, hlt⟩
          · exact Or.inr heqb
        · intro c hcm hca
          rcases List.mem_cons.mp hcm with hch | hct
          · have hha : a ≤ h.size := hch ▸ hca
            have hcs : s ≤ h.size - a := by
              by_contra hlt'
              exact hc ⟨hha, by omega⟩
            rw [hch]
            rcases hmem with ⟨_, hlt⟩ | heqb
            · omega
            · obtain ⟨_, hs, _⟩ := hinv1 j b heqb
              omega
          · exact hmin c hct hca
        · intro c hcm hca hde
          rcases List.mem_cons.mp hcm with hch | hct
          · have hha : a ≤ h.size := hch ▸ hca
            have hcs : s ≤ h.size - a := by
              by_contra hlt'
              exact hc ⟨hha, by omega⟩
            rw [hch] at hde
            rcases hmem with ⟨_, hlt⟩ | heqb
            · omega
            · obtain ⟨_, hs, hless⟩ := hinv1 j b heqb
              have := hless h (List.mem_cons_self h t)
              rw [hch]
              omega
          · exact htie c hct hca hde

/-- C4 amended: on an address-ordered registry with sizes below
SIZE_MAX, best-fit fails exactly when no block's size reaches the
aligned request, and a successful call returns the payload of a
registry block of sufficient size that minimises size minus the aligned
request, the earliest in address order among ties. -/
theorem claim4_amended (l : List Block) (n : Nat)
    (hsort : l.Pairwise fun x y => x.addr < y.addr)
    (hbound : ∀ c ∈ l, c.size < 2 ^ 64 - 1) :
    (best_fit_algorithm l n = .fail ↔ ∀ c ∈ l, c.size < align8 n) ∧
    (∀ p hdr l', best_fit_algorithm l n = .ok p hdr l' →
      ∃ b, b ∈ l ∧ p = b.addr + 8 ∧ align8 n ≤ b.size ∧
        (∀ c ∈ l, align8 n ≤ c.size → b.size - align8 n ≤ c.size - align8 n) ∧
        (∀ c ∈ l, align8 n ≤ c.size →
          c.size - align8 n = b.size - align8 n → b.addr ≤ c.addr)) := by
  have spec := bestGo_spec (align8 n) l 0 (2 ^ 64 - 1) none hsort hbound
    (fun _ => rfl) (fun j b hjb => absurd hjb (by simp))
  rcases hbg : bestGo (align8 n) l 0 (2 ^ 64 - 1) none with _ | ⟨j, b⟩
  · obtain ⟨_, hno⟩ := spec.1 hbg
    constructor
    · constructor
      · intro _ c hcm
        have := hno c hcm
        omega
      · intro _
        rw [best_fit_algorithm, hbg]
    · intro p hdr l' hok
      rw [best_fit_algorithm, hbg] at hok
      exact absurd hok (by simp)
  · obtain ⟨hfit, hmem, hmin, htie⟩ := spec.2 j b hbg
    have hbl : b ∈ l := by
      rcases hmem with ⟨hm, _⟩ | hnone
      · exact hm
      · exact absurd hnone (by simp)
    constructor
    · constructor
      · intro hfail
        rw [best_fit_algorithm, hbg] at hfail
        dsimp only at hfail
        by_cases hsplit : 8 + 8 < b.size - align8 n
        · rw [if_pos hsplit] at hfail
          by_cases ha : align8 n = 0
          · rw [if_pos ha] at hfail
            exact absurd hfail (by simp)
          · rw [if_neg ha] at hfail
            exact absurd hfail (by simp)
        · rw [if_neg hsplit] at hfail
          exact absurd hfail (by simp)
      · intro hall
        have := hall b hbl
        omega
    · intro p hdr l' hok
      rw [best_fit_algorithm, hbg] at hok
      dsimp only at hok
      have hp : p = b.addr + 8 := by
        by_cases hsplit : 8 + 8 < b.size - align8 n
        · rw [if_pos hsplit] at hok
          by_cases ha : align8 n = 0
          · rw [if_pos ha] at hok
            exact absurd hok (by simp)
          · rw [if_neg ha] at hok
            injection hok with h1 h2 h3
            exact h1.symm
        · rw [if_neg hsplit] at hok
          injection hok with h1 h2 h3
          exact h1.symm
      exact ⟨b, hbl, hp, hfit, hmin, htie⟩

/-- C4 witness: on the address-ordered registry of blocks (4096, 24) and
(4128, 48), a request of 56 fails under best-fit because no block
reaches the aligned size 56 - obtained through the amended theorem. -/
theorem claim4_witness :
    ([⟨4096, 24⟩, ⟨4128, 48⟩] : List Block).Pairwise (fun x y => x.addr < y.addr) ∧
    best_fit_algorithm [⟨4096, 24⟩, ⟨4128, 48⟩] 56 = .fail :=
  ⟨by decide,
    ((claim4_amended [⟨4096, 24⟩, ⟨4128, 48⟩] 56 (by decide) (by decide)).1).mpr
      (by decide)⟩

/-- Any block returned by the best-fit scan fits the request and comes
from the list or from the starting candidate. -/
theorem bestGo_mem (a : Nat) :
    ∀ (l : List Block) (i s : Nat) (best : Option (Nat × Block)),
      (∀ j b, best = some (j, b) → a ≤ b.size) →
      ∀ j b, bestGo a l i s best = some (j, b) →
        a ≤ b.size ∧ (b ∈ l ∨ best = some (j, b)) := by
  intro l
  induction l with
  | nil =>
    intro i s best hinv j b hres
    rw [bestGo] at hres
    exact ⟨hinv j b hres, Or.inr hres⟩
  | cons h t ih =>
    intro i s best hinv j b hres
    rw [bestGo] at hres
    by_cases hc : a ≤ h.size ∧ h.size - a < s
    · rw [if_pos hc] at hres
      have hinv' : ∀ j' b', some (i, h) = some (j', b') → a ≤ b'.size := by
        intro j' b' hjb
        have : h = b' := congrArg Prod.snd (Option.some.inj hjb)
        exact this ▸ hc.1
      obtain ⟨hfit, hm⟩ := ih (i + 1) (h.size - a) (some (i, h)) hinv' j b hres
      refine ⟨hfit, Or.inl ?_⟩
      rcases hm with hm | hm
      · exact List.mem_cons_of_mem h hm
      · have : h = b := congrArg Prod.snd (Option.some.inj hm)
        exact this ▸ List.mem_cons_self h t
    · rw [if_neg hc] at hres
      obtain ⟨hfit, hm⟩ := ih (i + 1) s best hinv j b hres
      refine ⟨hfit, ?_⟩
      rcases hm with hm | hm
      · exact Or.inl (List.mem_cons_of_mem h hm)
      · exact Or.inr hm

/-- Any block returned by the worst-fit scan fits the raw request and
comes from the list or from the starting candidate. -/
theorem worstGo_mem (n : Nat) :
    ∀ (l : List Block) (i lg : Nat) (best : Option (Nat × Block)),
      (∀ j b, best = some (j, b) → n ≤ b.size) →
      ∀ j b, worstGo n l i lg best = some (j, b) →
        n ≤ b.size ∧ (b ∈ l ∨ best = some (j, b)) := by
  intro l
  induction l with
  | nil =>
    intro i lg best hinv j b hres
    rw [worstGo] at hres
    exact ⟨hinv j b hres, Or.inr hres⟩
  | cons h t ih =>
    intro i lg best hinv j b hres
    rw [worstGo] at hres
    by_cases hc : n ≤ h.size ∧ lg < h.size - n
    · rw [if_pos hc] at hres
      have hinv' : ∀ j' b', some (i, h) = some (j', b') → n ≤ b'.size := by
        intro j' b' hjb
        have : h = b' := congrArg Prod.snd (Option.some.inj hjb)
        exact this ▸ hc.1
      obtain ⟨hfit, hm⟩ := ih (i + 1) (h.size - n) (some (i, h)) hinv' j b hres
      refine ⟨hfit, Or.inl ?_⟩
      rcases hm with hm | hm
      · exact List.mem_cons_of_mem h hm
      · have : h = b := congrArg Prod.snd (Option.some.inj hm)
        exact this ▸ List.mem_cons_self h t
    · rw [if_neg hc] at hres
      obtain ⟨hfit, hm⟩ := ih (i + 1) lg best hinv j b hres
      refine ⟨hfit, ?_⟩
      rcases hm with hm | hm
      · exact Or.inl (List.mem_cons_of_mem h hm)
      · exact Or.inr hm

/-- The next-fit scan returns a fitting member of the scanned order. -/
theorem nfScan_spec (a : Nat) :
    ∀ l b, nfScan a l = some b → b ∈ l ∧ a ≤ b.size := by
  intro l
  induction l with
  | nil => intro b hres; exact absurd hres (by rw [nfScan]; simp)
  | cons h t ih =>
    intro b hres
    rw [nfScan] at hres
    by_cases hc : a ≤ h.size
    · rw [if_pos hc] at hres
      have : h = b := Option.some.inj hres
      exact ⟨this ▸ List.mem_cons_self h t, this ▸ hc⟩
    · rw [if_neg hc] at hres
      obtain ⟨hm, hf⟩ := ih b hres
      exact ⟨List.mem_cons_of_mem h hm, hf⟩

/-- C6 amended: on every successful allocation, the header found at the
returned pointer minus 8 is determined per strategy.  First-fit: the
aligned request if the block was split (its size above aligned request
plus 8), else the block's original size; in both cases at least the
aligned request.  Best-fit: likewise with split threshold block size
minus aligned request above 16.  Worst-fit: always exactly the raw,
unaligned request.  Next-fit: when remaining (computed in size_t)
exceeds 16 the returned payload is the residual block's, whose header
holds that remainder; otherwise the selected block's payload with its
original header. -/
theorem claim6_amended :
    (∀ (l : List Block) (n p hdr : Nat) (l' : List Block),
      first_fit_algorithm l n = .ok p hdr l' →
      align8 n ≤ hdr ∧ ∃ b, b ∈ l ∧ p = b.addr + 8 ∧ align8 n ≤ b.size ∧
        hdr = if w64 (align8 n + 8) < b.size then align8 n else b.size) ∧
    (∀ (l : List Block) (n p hdr : Nat) (l' : List Block),
      best_fit_algorithm l n = .ok p hdr l' →
      align8 n ≤ hdr ∧ ∃ b, b ∈ l ∧ p = b.addr + 8 ∧ align8 n ≤ b.size ∧
        hdr = if 8 + 8 < b.size - align8 n then align8 n else b.size) ∧
    (∀ (l : List Block) (n p hdr : Nat) (l' : List Block),
      worst_fit_algorithm l n = .ok p hdr l' →
      hdr = n ∧ ∃ b, b ∈ l ∧ p = b.addr + 8 ∧ n ≤ b.size) ∧
    (∀ (l : List Block) (cursor base rsize n p hdr : Nat) (l' : List Block)
      (cur' : Nat),
      next_fit_algorithm l cursor base rsize n = .ok p hdr l' cur' →
      ∃ b, b ∈ l ∧ align8 n ≤ b.size ∧
        ((8 * 2 < sub64 (sub64 b.size (align8 n)) 8 ∧
            p = b.addr + align8 n + 8 + 8 ∧
            hdr = sub64 (sub64 b.size (align8 n)) 8) ∨
         (sub64 (sub64 b.size (align8 n)) 8 ≤ 8 * 2 ∧
            p = b.addr + 8 ∧ hdr = b.size))) := by
  refine ⟨?_, ?_, ?_, ?_⟩
  · intro l n p hdr l' hok
    match l with
    | [] => exact absurd hok (by rw [first_fit_algorithm]; simp)
    | b :: t =>
      rw [first_fit_algorithm] at hok
      by_cases hfit : align8 n ≤ b.size
      · rw [if_pos hfit] at hok
        by_cases hsp : w64 (align8 n + 8) < b.size
        · rw [if_pos hsp] at hok
          by_cases ha : align8 n = 0
          · rw [if_pos ha] at hok
            exact absurd hok (by simp)
          · rw [if_neg ha] at hok
            injection hok with h1 h2 h3
            subst h1 h2
            exact ⟨le_rfl, b, List.mem_cons_self b t, rfl, hfit, (if_pos hsp).symm⟩
        · rw [if_neg hsp] at hok
          injection hok with h1 h2 h3
          subst h1 h2
          exact ⟨hfit, b, List.mem_cons_self b t, rfl, hfit, (if_neg hsp).symm⟩
      · rw [if_neg hfit] at hok
        by_cases hany : t.any fun c => align8 n ≤ c.size
        · rw [if_pos hany] at hok
          exact absurd hok (by simp)
        · rw [if_neg hany] at hok
          exact absurd hok (by simp)
  · intro l n p hdr l' hok
    rw [best_fit_algorithm] at hok
    rcases hbg : bestGo (align8 n) l 0 (2 ^ 64 - 1) none with _ | ⟨i, b⟩
    · rw [hbg] at hok
      exact absurd hok (by simp)
    · rw [hbg] at hok
      dsimp only at hok
      obtain ⟨hfit, hm⟩ := bestGo_mem (align8 n) l 0 (2 ^ 64 - 1) none
        (fun j b hjb => absurd hjb (by simp)) i b hbg
      have hbl : b ∈ l := by
        rcases hm with hm | hm
        · exact hm
        · exact absurd hm (by simp)
      by_cases hsp : 8 + 8 < b.size - align8 n
      · rw [if_pos hsp] at hok
        by_cases ha : align8 n = 0
        · rw [if_pos ha] at hok
          exact absurd hok (by simp)
        · rw [if_neg ha] at hok
          injection hok with h1 h2 h3
          subst h1 h2
          exact ⟨le_rfl, b, hbl, rfl, hfit, (if_pos hsp).symm⟩
      · rw [if_neg hsp] at hok
        injection hok with h1 h2 h3
        subst h1 h2
        exact ⟨hfit, b, hbl, rfl, hfit, (if_neg hsp).symm⟩
  · intro l n p hdr l' hok
    rw [worst_fit_algorithm] at hok
    rcases hwg : worstGo n l 0 0 none with _ | ⟨i, b⟩
    · rw [hwg] at hok
      exact absurd hok (by simp)
    · rw [hwg] at hok
      dsimp only at hok
      obtain ⟨hfit, hm⟩ := worstGo_mem n l 0 0 none
        (fun j b hjb => absurd hjb (by simp)) i b hwg
      have hbl : b ∈ l := by
        rcases hm with hm | hm
        · exact hm
        · exact absurd hm (by simp)
      by_cases hsp : 8 < sub64 (sub64 b.size n) 8
      · rw [if_pos hsp] at hok
        by_cases ha : n < 8
        · rw [if_pos ha] at hok
          exact absurd hok (by simp)
        · rw [if_neg ha] at hok
          injection hok with h1 h2 h3
          subst h1 h2
          exact ⟨rfl, b, hbl, rfl, hfit⟩
      · rw [if_neg hsp] at hok
        injection hok with h1 h2 h3
        subst h1 h2
        exact ⟨rfl, b, hbl, rfl, hfit⟩
  · intro l cursor base rsize n p hdr l' cur' hok
    rw [next_fit_algorithm] at hok
    rcases hidx : (if cursor = 0 ∨ cursor < base ∨ base + rsize ≤ cursor then some 0
        else l.findIdx? fun b => b.addr = cursor) with _ | i
    · rw [hidx] at hok
      exact absurd hok (by simp)
    · rw [hidx] at hok
      dsimp only at hok
      rcases hrot : l.rotate i with _ | ⟨s, t⟩
      · rw [hrot] at hok
        exact absurd hok (by simp)
      · rw [hrot] at hok
        dsimp only at hok
        rcases hsc : nfScan (align8 n) (s :: t) with _ | b
        · rw [hsc] at hok
          exact absurd hok (by simp)
        · rw [hsc] at hok
          dsimp only at hok
          obtain ⟨hmem, hfit⟩ := nfScan_spec (align8 n) (s :: t) b hsc
          have hbl : b ∈ l := by
            rw [← hrot] at hmem
            exact List.mem_rotate.mp hmem
          by_cases hsp : 8 * 2 < sub64 (sub64 b.size (align8 n)) 8
          · rw [if_pos hsp] at hok
            by_cases ha : align8 n = 0
            · rw [if_pos ha] at hok
              exact absurd hok (by simp)
            · rw [if_neg ha] at hok
              injection hok with h1 h2 h3 h4
              subst h1 h2
              exact ⟨b, hbl, hfit, Or.inl ⟨hsp, rfl, rfl⟩⟩
          · rw [if_neg hsp] at hok
            injection hok with h1 h2 h3 h4
            subst h1 h2
            exact ⟨b, hbl, hfit, Or.inr ⟨by omega, rfl, rfl⟩⟩

/-- C6 witness: from the amended theorem at concrete calls - a split
first-fit allocation of 200 leaves header 208 = align8 200, and a
worst-fit allocation of 100 leaves the raw header 100. -/
theorem claim6_witness :
    align8 201 ≤ 208 ∧ (100 : Nat) = 100 :=
  ⟨(claim6_amended.1 [⟨4096, 4088⟩] 201 4104 208 [] (by decide)).1,
    (claim6_amended.2.2.1 [⟨4096, 4088⟩] 100 4104 100
      [⟨4204, 3980⟩] (by decide)).1⟩

/-- C7 amended: the next-fit cursor is replaced by the registry head
before scanning exactly when it is null or outside the region bounds
(a call with such a cursor behaves as one whose cursor forces the
reset); a non-null in-bounds cursor is used as the scan start as is,
whether or not its referent is a registry block. -/
theorem claim7_amended :
    (∀ (h : Heap) (base rsize cursor n fuel : Nat),
      cursor = 0 ∨ cursor < base ∨ base + rsize ≤ cursor →
      next_fitP h base rsize cursor n fuel = next_fitP h base rsize 0 n fuel) ∧
    (∀ (h : Heap) (base rsize cursor n fuel : Nat),
      cursor ≠ 0 → base ≤ cursor → cursor < base + rsize →
      next_fitP h base rsize cursor n fuel =
        nfLoop h (align8 n) cursor cursor fuel) := by
  constructor
  · intro h base rsize cursor n fuel hc
    rw [next_fitP, next_fitP, if_pos hc, if_pos (Or.inl rfl)]
  · intro h base rsize cursor n fuel h0 hlo hhi
    rw [next_fitP, if_neg (by push_neg; exact ⟨h0, by omega, by omega⟩)]

/-- C7 witness: in Hstale the out-of-bounds cursor 9000 behaves exactly
as the reset cursor, and the in-bounds stale cursor 4800 starts the scan
at 4800 itself. -/
theorem claim7_witness :
    next_fitP Hstale 4096 4096 9000 200 10 = next_fitP Hstale 4096 4096 0 200 10 ∧
    next_fitP Hstale 4096 4096 4800 200 10 = nfLoop Hstale (align8 200) 4800 4800 10 :=
  ⟨claim7_amended.1 Hstale 4096 4096 9000 200 10 (by omega),
    claim7_amended.2 Hstale 4096 4096 4800 200 10 (by omega) (by omega) (by omega)⟩

/-- C8 amended: under first-fit and best-fit, for every request the
initial region can satisfy (one free block of size S at base B with the
aligned request at most S), release of the just-allocated pointer
followed by the same request returns the same payload address B + 8. -/
theorem claim8_amended (B S n : Nat) (hfit : align8 n ≤ S)
    (hbound : S + 16 < 2 ^ 64) (hpos : 0 < align8 n) :
    ((first_fit_algorithm [⟨B, S⟩] n).ptrOf = some (B + 8) ∧
      ∀ hdr l₁, first_fit_algorithm [⟨B, S⟩] n = .ok (B + 8) hdr l₁ →
        (first_fit_algorithm (ufree ⟨B, hdr⟩ l₁) n).ptrOf = some (B + 8)) ∧
    ((best_fit_algorithm [⟨B, S⟩] n).ptrOf = some (B + 8) ∧
      ∀ hdr l₁, best_fit_algorithm [⟨B, S⟩] n = .ok (B + 8) hdr l₁ →
        (best_fit_algorithm (ufree ⟨B, hdr⟩ l₁) n).ptrOf = some (B + 8)) := by
  have hw : w64 (align8 n + 8) = align8 n + 8 := Nat.mod_eq_of_lt (by omega)
  have ha0 : ¬ align8 n = 0 := by omega
  have hffcall : ∀ X, align8 n ≤ X →
      first_fit_algorithm [⟨B, X⟩] n =
        if w64 (align8 n + 8) < X then .ok (B + 8) (align8 n) []
        else .ok (B + 8) X [] := by
    intro X hX
    rw [first_fit_algorithm]
    dsimp only
    rw [if_pos hX, if_neg ha0]
  have hffptr : ∀ X, align8 n ≤ X →
      (first_fit_algorithm [⟨B, X⟩] n).ptrOf = some (B + 8) := by
    intro X hX
    rw [hffcall X hX]
    by_cases hsp : w64 (align8 n + 8) < X
    · rw [if_pos hsp]; rfl
    · rw [if_neg hsp]; rfl
  have hbg1 : ∀ X, align8 n ≤ X → X ≤ S →
      bestGo (align8 n) [⟨B, X⟩] 0 (2 ^ 64 - 1) none = some (0, ⟨B, X⟩) := by
    intro X hX hXS
    rw [bestGo, if_pos ⟨hX, by dsimp only; omega⟩, bestGo]
  have hbcall : ∀ X, align8 n ≤ X → X ≤ S →
      best_fit_algorithm [⟨B, X⟩] n =
        if 8 + 8 < X - align8 n then
          .ok (B + 8) (align8 n) [⟨B + 8 + align8 n, X - align8 n - 8⟩]
        else .ok (B + 8) X [] := by
    intro X hX hXS
    rw [best_fit_algorithm, hbg1 X hX hXS]
    dsimp only
    rw [if_neg ha0]
    exact rfl
  have hbptr : ∀ X, align8 n ≤ X → X ≤ S →
      (best_fit_algorithm [⟨B, X⟩] n).ptrOf = some (B + 8) := by
    intro X hX hXS
    rw [hbcall X hX hXS]
    by_cases hsp : 8 + 8 < X - align8 n
    · rw [if_pos hsp]; rfl
    · rw [if_neg hsp]; rfl
  refine ⟨⟨hffptr S hfit, ?_⟩, ⟨hbptr S hfit le_rfl, ?_⟩⟩
  · intro hdr l₁ heq
    rw [hffcall S hfit] at heq
    by_cases hsp : w64 (align8 n + 8) < S
    · rw [if_pos hsp] at heq
      injection heq with h1 h2 h3
      subst h2 h3
      have : ufree ⟨B, align8 n⟩ [] = [⟨B, align8 n⟩] := rfl
      rw [this]
      exact hffptr (align8 n) le_rfl
    · rw [if_neg hsp] at heq
      injection heq with h1 h2 h3
      subst h2 h3
      have : ufree ⟨B, S⟩ [] = [⟨B, S⟩] := rfl
      rw [this]
      exact hffptr S hfit
  · intro hdr l₁ heq
    rw [hbcall S hfit le_rfl] at heq
    by_cases hsp : 8 + 8 < S - align8 n
    · rw [if_pos hsp] at heq
      injection heq with h1 h2 h3
      subst h2 h3
      have hco : ufree ⟨B, align8 n⟩ [⟨B + 8 + align8 n, S - align8 n - 8⟩] =
          [⟨B, S⟩] := by
        rw [ufree, insertSorted, if_neg (by dsimp only; omega), coalescing,
          coalLoop, if_pos (by dsimp only; omega), coalLoop]
        have hsz : align8 n + (S - align8 n - 8) + 8 = S := by omega
        dsimp only
        rw [hsz]
        rw [show w64 S = S from Nat.mod_eq_of_lt (by omega)]
      rw [hco]
      exact hbptr S hfit le_rfl
    · rw [if_neg hsp] at heq
      injection heq with h1 h2 h3
      subst h2 h3
      have : ufree ⟨B, S⟩ [] = [⟨B, S⟩] := rfl
      rw [this]
      exact hbptr S hfit le_rfl

/-- C8 witness: the amended round trip at the fresh 4096-byte region at
base 4096 with a request of 100 bytes, under both strategies. -/
theorem claim8_witness :
    (first_fit_algorithm [⟨4096, 4088⟩] 100).ptrOf = some 4104 ∧
    (best_fit_algorithm [⟨4096, 4088⟩] 100).ptrOf = some 4104 :=
  ⟨(claim8_amended 4096 4088 100 (by decide) (by decide) (by decide)).1.1,
    (claim8_amended 4096 4088 100 (by decide) (by decide) (by decide)).2.1⟩

end UMem
